import Mathlib

/-!
# Verification of the `pathcomp` prefix-compression trie

Shallow embedding of `src/pathcomp.c`.  The C program stores paths
(sequences of element identifiers below `LLA = 64`) in a singly-linked
chain of nodes; we model the chain reachable from the root as a
`List Node`, with the `next` pointer of the node at index `i` pointing
to the node at index `i + 1` (a missing node models a null pointer).

`letters_table` is a `uint64_t` in the source.  Every bit position the
algorithm's control flow ever inspects lies in `[1, 64)` (the
bit-counting loop of `count_uper_bits` runs `j` from `pos + 1` to
`LLA - 1`), so we model the field as a `Nat` in which the end-marker
`1 << LLA` of `pathcomp.c:87` is representable as a genuine bit 64;
the source's attempt to store that bit in a 64-bit word is itself the
subject of one of the theorems below (`terminal_marker_overflows_64`).

Dereferencing a null `next` pointer is modelled by returning `none`.
-/

namespace Pathcomp

/-- `#define LLA 64` — maximum number of elements (pathcomp.c:37). -/
def LLA : Nat := 64

/-- `struct node` (pathcomp.c:39-43).  The `next` pointer is represented
by list adjacency rather than by a field. -/
structure Node where
  letters_table : Nat
  weight : Nat
deriving DecidableEq, Repr

/-- `count_uper_bits` (pathcomp.c:48-56): counts the bits of
`i->letters_table` set at positions `j` with `pos < j < LLA`. -/
def count_uper_bits (i : Node) (pos : Nat) : Nat :=
  ((List.range LLA).filter fun j => pos < j && i.letters_table.testBit j).length

/-- One fresh `calloc`-zeroed node (pathcomp.c:76). -/
def fresh_node : Node := ⟨0, 0⟩

/-- The `for (k ...)` loop of `insert_path` (pathcomp.c:67-86), with the
current pointer `i` represented as an index `idx` into the chain.  Each
iteration dereferences `i` (hence fails with `none` when `idx` is past
the end of the chain, the null-pointer crash of the C code), ORs bit
`pos` into `i->letters_table`, counts the strictly higher bits, and
either advances `n` links or splices one fresh node right after `i`.
Returns the final chain together with the index the pointer `i` ends on. -/
def insert_loop : List Node → Nat → List Nat → Option (List Node × Nat)
  | nodes, idx, [] => some (nodes, idx)
  | nodes, idx, pos :: rest =>
    match nodes[idx]? with
    | none => none
    | some cur =>
      let cur' : Node := ⟨cur.letters_table ||| 1 <<< pos, cur.weight⟩
      let nodes' := nodes.set idx cur'
      let n := count_uper_bits cur' pos
      if 0 < n then insert_loop nodes' (idx + n) rest
      else insert_loop (nodes'.insertIdx (idx + 1) fresh_node) (idx + 1) rest

/-- `insert_path` (pathcomp.c:65-89): run the loop from the root, then
dereference the final pointer once more to OR in the end marker
`1 << LLA` and store the weight (pathcomp.c:87-88). -/
def insert_path (nodes : List Node) (path : List Nat) (weight : Nat) :
    Option (List Node) :=
  match insert_loop nodes 0 path with
  | none => none
  | some (mid, f) =>
    match mid[f]? with
    | none => none
    | some last => some (mid.set f ⟨last.letters_table ||| 1 <<< LLA, weight⟩)

/-- The fresh trie of `main` (pathcomp.c:109): one `calloc`-zeroed root. -/
def fresh_trie : List Node := [fresh_node]

/-- Chain produced by `insert_path(root, [0,1], 2, 10)` on a fresh trie. -/
def st1 : List Node := [⟨1, 0⟩, ⟨2, 0⟩, ⟨1 <<< LLA, 10⟩]

/-- Chain produced by then running `insert_path(root, [0,1,2], 3, 25)`. -/
def st2 : List Node :=
  [⟨1, 0⟩, ⟨2, 0⟩, ⟨4, 0⟩, ⟨1 <<< LLA, 25⟩, ⟨2, 0⟩, ⟨1 <<< LLA, 10⟩]

/-- Chain produced by then running `insert_path(root, [1,2], 2, 15)`. -/
def st3 : List Node :=
  [⟨3, 0⟩, ⟨4, 0⟩, ⟨1 <<< LLA, 15⟩, ⟨2, 0⟩, ⟨4, 0⟩, ⟨1 <<< LLA, 25⟩,
   ⟨2, 0⟩, ⟨1 <<< LLA, 10⟩]

/-- Chain after `insert_path(root, [5], 1, 7)` on a fresh trie. -/
def stA : List Node := [⟨1 <<< 5, 0⟩, ⟨1 <<< LLA, 7⟩]

/-- Chain after then running `insert_path(root, [2], 1, 9)`. -/
def stB : List Node := [⟨1 <<< 5 ||| 1 <<< 2, 0⟩, ⟨1 <<< LLA, 9⟩]

/-- Chain after inserting `[0,1]` with weight 10 twice on a fresh trie. -/
def st5 : List Node :=
  [⟨1, 0⟩, ⟨2, 0⟩, ⟨1 <<< LLA, 10⟩, ⟨2, 0⟩, ⟨1 <<< LLA, 10⟩]

example : insert_path fresh_trie [0, 1] 10 = some st1 := by decide
example : insert_path st1 [0, 1, 2] 25 = some st2 := by decide
example : insert_path st2 [1, 2] 15 = some st3 := by decide
example : insert_path fresh_trie [5] 7 = some stA := by decide
example : insert_path stA [2] 9 = some stB := by decide
example : insert_path stB [0] 11 = none := by decide
example : insert_path st1 [0, 1] 10 = some st5 := by decide

/-! ## Chain embeddings

`insert_path` mutates nodes in place and splices fresh nodes into the
chain; it never removes a node and never clears a bit.  We capture this
with an order-preserving embedding of the old chain into the new one. -/

/-- Every membership bit of `a` is also set in `b`. -/
def bits_le (a b : Node) : Prop :=
  ∀ j, a.letters_table.testBit j = true → b.letters_table.testBit j = true

/-- An old node survives in place: its bits only grow, its weight is
untouched. -/
def node_kept (a b : Node) : Prop := bits_le a b ∧ a.weight = b.weight

/-- A node absent from the old chain was freshly `calloc`-ed during the
insertion, so (before the final weight store) its weight is 0. -/
def node_new (b : Node) : Prop := b.weight = 0

/-- Order-preserving embedding of an old chain into a new one: each old
node is matched, in order, with a new node related to it by `R`; the
unmatched new nodes satisfy `S`. -/
inductive Emb (R : Node → Node → Prop) (S : Node → Prop) :
    List Node → List Node → Prop where
  | nil : Emb R S [] []
  | cons {a b : Node} {l₁ l₂ : List Node} :
      R a b → Emb R S l₁ l₂ → Emb R S (a :: l₁) (b :: l₂)
  | skip {b : Node} {l₁ l₂ : List Node} :
      S b → Emb R S l₁ l₂ → Emb R S l₁ (b :: l₂)

theorem Emb.rfl {R : Node → Node → Prop} {S : Node → Prop}
    (hR : ∀ a, R a a) : ∀ l, Emb R S l l
  | [] => .nil
  | _ :: t => .cons (hR _) (Emb.rfl hR t)

theorem Emb.mono {R R' : Node → Node → Prop} {S S' : Node → Prop}
    (hR : ∀ a b, R a b → R' a b) (hS : ∀ b, S b → S' b) :
    ∀ {l₁ l₂ : List Node}, Emb R S l₁ l₂ → Emb R' S' l₁ l₂
  | _, _, .nil => .nil
  | _, _, .cons hr h => .cons (hR _ _ hr) (Emb.mono hR hS h)
  | _, _, .skip hs h => .skip (hS _ hs) (Emb.mono hR hS h)

theorem Emb.trans {R : Node → Node → Prop} {S : Node → Prop}
    (hR : ∀ a b c, R a b → R b c → R a c)
    (hS : ∀ b c, S b → R b c → S c) :
    ∀ {l₁ l₂ l₃ : List Node}, Emb R S l₁ l₂ → Emb R S l₂ l₃ →
      Emb R S l₁ l₃ := by
  intro l₁ l₂ l₃ h₁₂ h₂₃
  induction h₂₃ generalizing l₁ with
  | nil => exact h₁₂
  | cons hr _ ih =>
    cases h₁₂ with
    | cons hr' h' => exact .cons (hR _ _ _ hr' hr) (ih h')
    | skip hs h' => exact .skip (hS _ _ hs hr) (ih h')
  | skip hs _ ih => exact .skip hs (ih h₁₂)

theorem bits_le_rfl (a : Node) : bits_le a a := fun _ h => h

theorem bits_le_or (a : Node) (m w : Nat) :
    bits_le a ⟨a.letters_table ||| m, w⟩ := by
  intro j hj
  simp [Nat.testBit_lor, hj]

theorem node_kept_rfl (a : Node) : node_kept a a :=
  ⟨bits_le_rfl a, Eq.refl a.weight⟩

/-- Setting position `idx` of the chain to a node that the old occupant
relates to yields an embedding. -/
theorem emb_set {R : Node → Node → Prop} {S : Node → Prop}
    (hrfl : ∀ a, R a a) :
    ∀ (nodes : List Node) (idx : Nat) (cur b : Node),
      nodes[idx]? = some cur → R cur b → Emb R S nodes (nodes.set idx b)
  | [], idx, cur, b, h, _ => by simp at h
  | a :: t, 0, cur, b, h, hr => by
    simp at h
    subst h
    exact .cons hr (Emb.rfl hrfl t)
  | a :: t, idx + 1, cur, b, h, hr => by
    simp at h
    exact .cons (hrfl a) (emb_set hrfl t idx cur b h hr)

/-- Splicing one fresh node into the chain yields an embedding. -/
theorem emb_insertIdx {R : Node → Node → Prop} {S : Node → Prop}
    (hrfl : ∀ a, R a a) (hS : S fresh_node) :
    ∀ (nodes : List Node) (k : Nat),
      Emb R S nodes (nodes.insertIdx k fresh_node)
  | nodes, 0 => by
    rw [List.insertIdx_zero]
    exact .skip hS (Emb.rfl hrfl nodes)
  | [], k + 1 => by
    rw [List.insertIdx_succ_nil]
    exact .nil
  | a :: t, k + 1 => by
    rw [List.insertIdx_succ_cons]
    exact .cons (hrfl a) (emb_insertIdx hrfl hS t k)

theorem node_kept_trans (a b c : Node) (hab : node_kept a b)
    (hbc : node_kept b c) : node_kept a c :=
  ⟨fun j hj => hbc.1 j (hab.1 j hj), hab.2.trans hbc.2⟩

theorem node_new_kept (b c : Node) (hb : node_new b)
    (hbc : node_kept b c) : node_new c :=
  (hbc.2.symm.trans hb : c.weight = 0)

theorem emb_kept_trans {l₁ l₂ l₃ : List Node}
    (h₁ : Emb node_kept node_new l₁ l₂) (h₂ : Emb node_kept node_new l₂ l₃) :
    Emb node_kept node_new l₁ l₃ :=
  Emb.trans node_kept_trans node_new_kept h₁ h₂

/-- Master lemma: the insertion loop embeds the starting chain into the
resulting one, keeping every old node (bits grow, weight untouched) and
only adding fresh weight-0 nodes. -/
theorem insert_loop_emb :
    ∀ (path : List Nat) (nodes : List Node) (idx : Nat)
      (mid : List Node) (f : Nat),
      insert_loop nodes idx path = some (mid, f) →
      Emb node_kept node_new nodes mid := by
  intro path
  induction path with
  | nil =>
    intro nodes idx mid f h
    simp [insert_loop] at h
    exact h.1 ▸ Emb.rfl node_kept_rfl nodes
  | cons pos rest ih =>
    intro nodes idx mid f h
    rw [insert_loop] at h
    cases hcur : nodes[idx]? with
    | none => rw [hcur] at h; exact absurd h (by simp)
    | some cur =>
      rw [hcur] at h
      simp only at h
      have hkept : node_kept cur ⟨cur.letters_table ||| 1 <<< pos, cur.weight⟩ :=
        ⟨bits_le_or cur _ _, Eq.refl cur.weight⟩
      by_cases hn : 0 < count_uper_bits ⟨cur.letters_table ||| 1 <<< pos, cur.weight⟩ pos
      · rw [if_pos hn] at h
        exact emb_kept_trans (emb_set node_kept_rfl nodes idx cur _ hcur hkept)
          (ih _ _ _ _ h)
      · rw [if_neg hn] at h
        exact emb_kept_trans (emb_set node_kept_rfl nodes idx cur _ hcur hkept)
          (emb_kept_trans (emb_insertIdx (S := node_new) node_kept_rfl rfl _ _)
            (ih _ _ _ _ h))

/-! ## Totality of the first insertion -/

/-- A node holding the single bit `pos` has no set bit strictly above
`pos` in `[0, LLA)`. -/
theorem count_uper_two_pow (pos w0 : Nat) :
    count_uper_bits ⟨1 <<< pos, w0⟩ pos = 0 := by
  rw [count_uper_bits, List.length_eq_zero, List.filter_eq_nil_iff]
  intro j _
  simp only [Bool.and_eq_true, decide_eq_true_eq, not_and]
  intro hpj
  rw [Nat.one_shiftLeft]
  simp [Nat.testBit_two_pow_of_ne (Nat.ne_of_lt hpj)]

/-- As long as the pointer `i` rests on an all-zero-bits node, every
loop iteration allocates (the bit count is 0) and moves onto the fresh
node, so the loop cannot fall off the chain. -/
theorem insert_loop_fresh :
    ∀ (path : List Nat) (nodes : List Node) (idx w0 : Nat),
      nodes[idx]? = some ⟨0, w0⟩ →
      ∃ mid f, insert_loop nodes idx path = some (mid, f) ∧
        f < mid.length := by
  intro path
  induction path with
  | nil =>
    intro nodes idx w0 h
    exact ⟨nodes, idx, by simp [insert_loop],
      (List.getElem?_eq_some.1 h).1⟩
  | cons pos rest ih =>
    intro nodes idx w0 h
    have hlt : idx < nodes.length := (List.getElem?_eq_some.1 h).1
    rw [insert_loop, h]
    simp only [Nat.zero_or, count_uper_two_pow, Nat.lt_irrefl, if_false]
    apply ih _ _ 0
    have hle : idx + 1 ≤ (nodes.set idx ⟨1 <<< pos, w0⟩).length := by
      simpa using hlt
    have hlt' : idx + 1 <
        ((nodes.set idx ⟨1 <<< pos, w0⟩).insertIdx (idx + 1)
          fresh_node).length := by
      rw [List.length_insertIdx _ _ hle]
      exact Nat.lt_succ_of_le hle
    rw [List.getElem?_eq_getElem hlt']
    exact congrArg some (List.getElem_insertIdx_self _ _ _ hle)

/-! ## Validated insertion (spec §4.1, §7)

The source performs no input validation; the spec's §7 error taxonomy
is specified "to be added in reimplementation; absent in source". -/

/-- The error taxonomy of spec §7. -/
inductive InsertError where
  | InvalidInput
  | OutOfRange
  | OutOfMemory
deriving DecidableEq, Repr

/-- Modelled from the spec: the validated `insert` operation of §4.1 and
§7, which is missing from `src/pathcomp.c` (the spec lists the error
conditions as "to be added in reimplementation; absent in source").
An empty path fails with `InvalidInput`; a path containing an identifier
outside `[0, LLA)` fails with `OutOfRange`; both checks precede any
mutation, so an error leaves the trie untouched (no new chain is
produced).  A valid path runs the source-translated `insert_path`. -/
def insert (nodes : List Node) (path : List Nat) (weight : Nat) :
    Except InsertError (Option (List Node)) :=
  if path.isEmpty then .error .InvalidInput
  else if path.any fun p => decide (LLA ≤ p) then .error .OutOfRange
  else .ok (insert_path nodes path weight)

theorem bits_le_trans (a b c : Node) (hab : bits_le a b) (hbc : bits_le b c) :
    bits_le a c := fun j hj => hbc j (hab j hj)

theorem emb_bits_trans {l₁ l₂ l₃ : List Node}
    (h₁ : Emb bits_le (fun _ => True) l₁ l₂)
    (h₂ : Emb bits_le (fun _ => True) l₂ l₃) :
    Emb bits_le (fun _ => True) l₁ l₃ :=
  Emb.trans bits_le_trans (fun _ _ _ _ => trivial) h₁ h₂

/-- A completed `insert_path` call embeds the old chain into the new one
with membership bits only growing. -/
theorem insert_path_emb (nodes : List Node) (path : List Nat)
    (w : Nat) (res : List Node) (h : insert_path nodes path w = some res) :
    Emb bits_le (fun _ => True) nodes res := by
  rw [insert_path] at h
  cases hl : insert_loop nodes 0 path with
  | none => rw [hl] at h; exact absurd h (by simp)
  | some p =>
    obtain ⟨mid, f⟩ := p
    rw [hl] at h
    dsimp only at h
    cases hf : mid[f]? with
    | none => rw [hf] at h; exact absurd h (by simp)
    | some last =>
      rw [hf] at h
      simp only [Option.some.injEq] at h
      subst h
      refine emb_bits_trans
        ((insert_loop_emb path nodes 0 mid f hl).mono
          (fun _ _ hk => hk.1) (fun _ _ => trivial)) ?_
      exact emb_set bits_le_rfl mid f last _ hf (bits_le_or last _ w)

/-- The end marker `1ULL << LLA` of pathcomp.c:87 as it fits in the
64-bit `letters_table` field declared at pathcomp.c:40: the shift
overflows the word, and under wrap-around semantics the stored mask is
the value below. -/
def terminal_mask_64 : Nat := (1 <<< LLA) % 2 ^ 64

/-! ## The claims -/

/-- Claim C1. The claim (matching the program's own asserts at
pathcomp.c:118-119) states that after `insert_path([0,1], 10)` on a
fresh trie the node on which bit 1 was set in the final iteration —
`root->next` — is marked terminal and carries weight 10.  The code
instead advances the pointer once more after setting the bit, so the
end marker and the weight land on `root->next->next`: `root->next` has
bit 1 but is not terminal and has weight 0.  This theorem evaluates the
embedded code at the claim's own worked example and exhibits the
divergence. -/
theorem insert01_terminal_after_last :
    insert_path fresh_trie [0, 1] 10 = some st1 ∧
    st1[0]?.map (fun nd => nd.letters_table.testBit 0) = some true ∧
    st1[1]?.map (fun nd => nd.letters_table.testBit 1) = some true ∧
    st1[1]?.map (fun nd => (nd.letters_table.testBit LLA, nd.weight)) =
      some (false, 0) ∧
    st1[2]?.map (fun nd => (nd.letters_table.testBit LLA, nd.weight)) =
      some (true, 10) := by
  refine ⟨by decide, by decide, by decide, by decide, by decide⟩

/-- Claim C2, counterexample. A sequence of three valid one-element
inserts after which the advance of step 3 moves past the end of the
chain: after `[5]` and `[2]`, inserting `[0]` ORs bit 0 into the root
(bits {0,2,5}), counts n = 2 strictly higher bits, advances two links
from the root of a two-node chain, and the final terminal-marking
access dereferences a missing node — `none` in the model, a null
dereference in the C code. -/
theorem insert_advance_past_end :
    insert_path fresh_trie [5] 7 = some stA ∧
    insert_path stA [2] 9 = some stB ∧
    (∀ p ∈ [(0 : Nat)], p < LLA) ∧
    insert_path stB [0] 11 = none := by
  refine ⟨by decide, by decide, by decide, by decide⟩

/-- Claim C2, amended. Every call of the model is terminating by
construction (the loop is structural recursion on the path), and the
first insertion into a fresh trie can never follow a null link: while
the current node has an all-zero bitmask, the strictly-higher-bit count
is 0, so each iteration splices a fresh (all-zero) node and steps onto
it.  Hence `insert_path` on `fresh_trie` completes for every path and
weight.  (For later insertions the advance can fall off the chain; see
the counterexample.) -/
theorem first_insert_total (path : List Nat) (w : Nat) :
    (insert_path fresh_trie path w).isSome = true := by
  obtain ⟨mid, f, hl, hf⟩ :=
    insert_loop_fresh path fresh_trie 0 0 (by decide)
  rw [insert_path, hl]
  dsimp only
  rw [List.getElem?_eq_getElem hf]
  simp

/-- Claim C3. The claim (matching the asserts at pathcomp.c:124-127)
states that inserting `[0,1,2]` with weight 25 after `[0,1]` yields a
third chain node with bit 2, marked terminal with weight 25, sharing
the existing `[0,1]` prefix nodes.  The code instead: (a) leaves the
third node (`root->next->next`, which does get bit 2) non-terminal with
weight 0, marking the *fourth* node instead, and (b) shares nothing —
re-inserting identifier 0 at the root finds no strictly higher bit
(n = 0) and splices a fresh node, so the whole prefix is duplicated and
the chain grows to 6 nodes, the old `[0,1]` continuation nodes
(indices 4 and 5) now orphaned behind the new copy. -/
theorem insert012_no_prefix_sharing :
    insert_path st1 [0, 1, 2] 25 = some st2 ∧
    st2.length = 6 ∧
    st2[2]?.map (fun nd =>
      (nd.letters_table.testBit 2, nd.letters_table.testBit LLA, nd.weight)) =
      some (true, false, 0) ∧
    st2[3]?.map (fun nd => (nd.letters_table.testBit LLA, nd.weight)) =
      some (true, 25) ∧
    st2[1]? = some ⟨2, 0⟩ ∧ st2[4]? = some ⟨2, 0⟩ ∧
    st2[5]? = some ⟨1 <<< LLA, 10⟩ := by
  refine ⟨by decide, by decide, by decide, by decide, by decide, by decide,
    by decide⟩

/-- Claim C4. Membership is monotone: `letters_table` is only ever
written through bitwise OR (pathcomp.c:69 and 87), and nodes are only
spliced in, never removed, so every node present before a completed
insert survives it, in order, with a superset of its membership bits.
In particular (second and third conjuncts) inserting `[1,2]` after
`[0,1]` and `[0,1,2]` sets bit 1 on the root alongside the
already-present bit 0. -/
theorem membership_monotone :
    (∀ (nodes : List Node) (path : List Nat) (w : Nat) (res : List Node),
        path ≠ [] → (∀ p ∈ path, p < LLA) →
        insert_path nodes path w = some res →
        Emb bits_le (fun _ => True) nodes res) ∧
    insert_path st2 [1, 2] 15 = some st3 ∧
    st3[0]?.map (fun nd =>
      (nd.letters_table.testBit 0, nd.letters_table.testBit 1)) =
      some (true, true) := by
  exact ⟨fun nodes path w res _ _ h => insert_path_emb nodes path w res h,
    by decide, by decide⟩

/-- Witness for claim C4: the general monotonicity theorem applied to the
concrete insertion of `[1,2]` into the chain left by `[0,1]` and
`[0,1,2]`. -/
theorem membership_monotone_witness :
    Emb bits_le (fun _ => True) st2 st3 :=
  membership_monotone.1 st2 [1, 2] 15 st3 (by decide) (by decide) (by decide)

/-- Claim C5, counterexample. Inserting `[0,1]` with weight 10 twice in
succession does *not* leave the membership bitmasks of the trie as they
were: the second insertion re-finds n = 0 at every step (an already-set
bit is not strictly greater than itself) and therefore splices two
fresh nodes, growing the chain from 3 to 5 nodes — the list of
membership words changes. -/
theorem double_insert_changes_masks :
    insert_path fresh_trie [0, 1] 10 = some st1 ∧
    insert_path st1 [0, 1] 10 = some st5 ∧
    st5.map Node.letters_table ≠ st1.map Node.letters_table := by
  refine ⟨by decide, by decide, by decide⟩

/-- Claim C5, amended. Re-inserting the same path and weight leaves every
node that existed after the first insertion *exactly* unchanged (same
bitmask, same weight, same order — the `Emb` with equality on matched
nodes), and the freshly spliced terminal node carries the weight again;
but the operation is not idempotent on the trie: it allocates one new
node per path element (here two). -/
theorem double_insert_duplicates :
    insert_path st1 [0, 1] 10 = some st5 ∧
    Emb (fun a b => a = b) (fun _ => True) st1 st5 ∧
    st5.length = st1.length + 2 ∧
    st5[2]?.map Node.weight = some 10 ∧
    st5[4]?.map Node.weight = some 10 := by
  refine ⟨by decide, ?_, by decide, by decide, by decide⟩
  show Emb _ _ [⟨1, 0⟩, ⟨2, 0⟩, ⟨1 <<< LLA, 10⟩]
    [⟨1, 0⟩, ⟨2, 0⟩, ⟨1 <<< LLA, 10⟩, ⟨2, 0⟩, ⟨1 <<< LLA, 10⟩]
  exact .cons rfl (.cons rfl (.cons rfl
    (.skip trivial (.skip trivial .nil))))

/-- Claim C6. The end marker is `1ULL << LLA` with `LLA = 64`, stored
into the 64-bit `letters_table` field (pathcomp.c:87, 37-40) — the
claim says this marker bit lies at index 64, outside `[0, 64)`, and can
never collide with an identifier's membership bit.  But a 64-bit word
has no bit 64: under wrap-around semantics the stored mask is
`(1 <<< LLA) % 2^64 = 0`, so marking a node terminal sets *no* flag at
all (and the program's own end-marker asserts at pathcomp.c:118 and 126
fail); under x86's shift-count masking (`LLA % 64 = 0`) the marker
aliases `1 <<< 0`, the membership bit of identifier 0 — a collision
that makes identifier 0 appear present.  Either way the claim fails on
the 64-bit representation the code declares. -/
theorem terminal_marker_overflows_64 :
    terminal_mask_64 = 0 ∧
    (∀ lt : Nat, lt ||| terminal_mask_64 = lt) ∧
    1 <<< (LLA % 64) = 1 <<< 0 ∧
    Nat.testBit (1 <<< (LLA % 64)) 0 = true := by
  refine ⟨by decide, fun lt => ?_, by decide, by decide⟩
  have h0 : terminal_mask_64 = 0 := by decide
  rw [h0, Nat.or_zero]

/-- Claim C7, counterexample. After inserting `[5]` and then `[2]` into
a fresh trie there are *not* two distinct chain nodes beyond the root:
the chain has exactly 2 nodes (root plus one), bits 5 and 2 both sit on
the root, and both insertions end on the single continuation node. -/
theorem insert5_insert2_single_node :
    insert_path fresh_trie [5] 7 = some stA ∧
    insert_path stA [2] 9 = some stB ∧
    stB.length = 2 ∧ ¬3 ≤ stB.length ∧
    stB[0]?.map (fun nd =>
      (nd.letters_table.testBit 5, nd.letters_table.testBit 2)) =
      some (true, true) := by
  refine ⟨by decide, by decide, by decide, by decide, by decide⟩

/-- Claim C7, amended. Inserting `[5]` then `[2]` makes the two
identifiers *share* a single continuation node: the offset for 2 is
n = 1 (one membership bit, 5, strictly greater than 2), which advances
onto the node allocated for 5's continuation; that node stays terminal
and its weight is overwritten from 7 to 9 — no second node beyond the
root is created. -/
theorem insert5_insert2_shared_node :
    insert_path stA [2] 9 = some stB ∧
    count_uper_bits ⟨1 <<< 5 ||| 1 <<< 2, 0⟩ 2 = 1 ∧
    stB = [⟨1 <<< 5 ||| 1 <<< 2, 0⟩, ⟨1 <<< LLA, 9⟩] ∧
    stA.length = stB.length ∧
    stA[1]?.map Node.weight = some 7 ∧
    stB[1]?.map Node.weight = some 9 := by
  refine ⟨by decide, by decide, by decide, by decide, by decide, by decide⟩

/-- Claim C8. (Against the spec-modelled validated `insert`:) a path
containing an identifier `≥ LLA` fails with `OutOfRange`, and since the
range check precedes any mutation, no chain is produced — the trie is
left unmodified. -/
theorem insert_out_of_range (nodes : List Node) (path : List Nat)
    (w p : Nat) (hp : p ∈ path) (hge : LLA ≤ p) :
    insert nodes path w = Except.error InsertError.OutOfRange := by
  have hne : path ≠ [] := List.ne_nil_of_mem hp
  rw [insert, if_neg (by simp [List.isEmpty_iff, hne]),
    if_pos (List.any_eq_true.2 ⟨p, hp, decide_eq_true hge⟩)]

/-- Witness for claim C8: inserting the single out-of-range identifier 70
is rejected. -/
theorem insert_out_of_range_witness :
    insert fresh_trie [70] 5 = Except.error InsertError.OutOfRange :=
  insert_out_of_range fresh_trie [70] 5 70 (by decide) (by decide)

/-- Claim C9. (Against the spec-modelled validated `insert`:) an empty
path fails with `InvalidInput` before any mutation — no node is marked
terminal and the weight is not stored anywhere, because the emptiness
check precedes the call to the insertion loop. -/
theorem insert_empty_invalid (nodes : List Node) (w : Nat) :
    insert nodes [] w = Except.error InsertError.InvalidInput := rfl

/-- Claim C10. Weight frame: a completed `insert_path` writes the weight
field of exactly one node — the node the pointer rests on after the
last identifier is processed (index `f`, pathcomp.c:88).  The result is
the loop's chain `mid` with only position `f` rewritten (terminal bit
ORed in, weight set to `w`); and `mid` embeds the old chain keeping
every old node's weight exactly (`node_kept`), while nodes not matched
to old ones are freshly `calloc`-ed with weight 0 (`node_new`).  So
every pre-existing node other than the final one keeps its weight, and
the final node ends with weight `w`. -/
theorem insert_weight_frame (nodes : List Node) (path : List Nat)
    (w : Nat) (res : List Node) (h : insert_path nodes path w = some res) :
    ∃ mid f last, insert_loop nodes 0 path = some (mid, f) ∧
      mid[f]? = some last ∧
      Emb node_kept node_new nodes mid ∧
      res = mid.set f ⟨last.letters_table ||| 1 <<< LLA, w⟩ ∧
      res[f]?.map Node.weight = some w := by
  rw [insert_path] at h
  cases hl : insert_loop nodes 0 path with
  | none => rw [hl] at h; exact absurd h (by simp)
  | some pr =>
    obtain ⟨mid, f⟩ := pr
    rw [hl] at h
    dsimp only at h
    cases hf : mid[f]? with
    | none => rw [hf] at h; exact absurd h (by simp)
    | some last =>
      rw [hf] at h
      simp only [Option.some.injEq] at h
      subst h
      refine ⟨mid, f, last, rfl, hf,
        insert_loop_emb path nodes 0 mid f hl, rfl, ?_⟩
      rw [List.getElem?_set_eq_of_lt _ (List.getElem?_eq_some.1 hf).1]
      rfl

/-- Witness for claim C10: the weight-frame theorem applied to the
concrete insertion of `[0,1,2]` with weight 25 into the chain left by
`[0,1]`. -/
theorem insert_weight_frame_witness :
    ∃ mid f last, insert_loop st1 0 [0, 1, 2] = some (mid, f) ∧
      mid[f]? = some last ∧
      Emb node_kept node_new st1 mid ∧
      st2 = mid.set f ⟨last.letters_table ||| 1 <<< LLA, 25⟩ ∧
      st2[f]?.map Node.weight = some 25 :=
  insert_weight_frame st1 [0, 1, 2] 25 st2 (by decide)

end Pathcomp
